import Mathlib

/-!
Verification of the pricechartingtool data-transformation scripts.

This file gives a shallow embedding of the two batch pipelines of the
repository and proves/refutes the specified properties about them:

* `misc/EphemerisGeneration/cycleHuntingGeneric/makeFilledMasterEphemeris_2p.py`:
  the longitude "unwrap" transform (`doCalculationsForColumn`) and the
  two-planet synodic combination (`doCalculationsForColumns`).
* `misc/DataFormatting/convertDailyToWeekly.py`: the daily-to-weekly
  price-bar aggregator, including its ISO-calendar computation (mirroring
  CPython's `datetime.date.isocalendar`), its chronological-order check and
  its per-line format validation.

Numeric cells are modelled as exact rationals (`ℚ`); the scripts use binary
floating point, but every property at issue concerns comparisons, copies and
sums of small decimal values, which `ℚ` models faithfully.  Python integer
division/modulus (`//`, `%`) is floor-style; all divisors appearing here
(4, 100, 400, 7) are positive, so Lean's Euclidean `Int` division `/` and `%`
coincide with Python's semantics.
-/

deriving instance DecidableEq for Except

namespace Ephemeris

/-- The constant `maximumIncrement` of the script: day-to-day values should
not jump by more than this. -/
def maximumIncrement : ℚ := 330

/-- The decreasing adjustment loop of `doCalculationsForColumn` (and of
`doCalculationsForColumns`): `while prevCalculatedValue < currCalculatedValue
- maximumIncrement: currCalculatedValue -= 360.0`. -/
def decAdjust (prev curr : ℚ) : ℚ :=
  if prev < curr - maximumIncrement then decAdjust prev (curr - 360) else curr
termination_by (⌈curr - prev⌉).toNat
decreasing_by
  rename_i hguard
  have h1 : (330 : ℚ) < curr - prev := by
    have hm : maximumIncrement = 330 := rfl
    rw [hm] at hguard
    linarith
  have h3 : ⌈curr - 360 - prev⌉ = ⌈curr - prev⌉ - 360 := by
    have h : (curr - 360 - prev) = (curr - prev) - ((360:ℤ):ℚ) := by push_cast; ring
    rw [h, Int.ceil_sub_int]
  have h2 : (0:ℤ) < ⌈curr - prev⌉ := by
    have hc : (330:ℚ) < (⌈curr - prev⌉ : ℚ) := lt_of_lt_of_le h1 (Int.le_ceil _)
    exact_mod_cast lt_trans (by norm_num : (0:ℚ) < 330) hc
  omega

/-- The increasing adjustment loop: `while prevCalculatedValue >=
currCalculatedValue + maximumIncrement: currCalculatedValue += 360.0`. -/
def incAdjust (prev curr : ℚ) : ℚ :=
  if prev ≥ curr + maximumIncrement then incAdjust prev (curr + 360) else curr
termination_by (⌈prev - curr⌉).toNat
decreasing_by
  rename_i hguard
  have h1 : (330 : ℚ) ≤ prev - curr := by
    have hm : maximumIncrement = 330 := rfl
    rw [hm] at hguard
    linarith
  have h3 : ⌈prev - (curr + 360)⌉ = ⌈prev - curr⌉ - 360 := by
    have h : (prev - (curr + 360)) = (prev - curr) - ((360:ℤ):ℚ) := by push_cast; ring
    rw [h, Int.ceil_sub_int]
  have h2 : (0:ℤ) < ⌈prev - curr⌉ := by
    have hc : (330:ℚ) ≤ (⌈prev - curr⌉ : ℚ) := le_trans h1 (Int.le_ceil _)
    exact_mod_cast lt_of_lt_of_le (by norm_num : (0:ℚ) < 330) hc
  omega

/-- One step of the adjustment `if/elif/elif/else` chain shared (textually
duplicated) by `doCalculationsForColumn` and `doCalculationsForColumns`:
`prevCalculatedValue == None` means no adjustment. -/
def adjustStep : Option ℚ → ℚ → ℚ
  | none, curr => curr
  | some p, curr =>
    if p < curr - maximumIncrement then decAdjust p curr
    else if p ≥ curr + maximumIncrement then incAdjust p curr
    else curr

/-- The row loop of `doCalculationsForColumn`, carrying
`prevCalculatedValue` and emitting one adjusted value per row. -/
def doCalculationsForColumnAux (prev : Option ℚ) : List ℚ → List ℚ
  | [] => []
  | x :: xs =>
    let y := adjustStep prev x
    y :: doCalculationsForColumnAux (some y) xs

/-- `doCalculationsForColumn`: the single-planet unwrap transform applied to
the column of longitude values (one value per row), with
`prevCalculatedValue` starting as `None`. -/
def doCalculationsForColumn (xs : List ℚ) : List ℚ :=
  doCalculationsForColumnAux none xs

/-- The row loop of `doCalculationsForColumns`: each row contributes the pair
(faster-planet longitude, slower-planet longitude) and the raw value is
`fasterPlanetLongitude + 360 - slowerPlanetLongitude` before the identical
adjustment chain. -/
def doCalculationsForColumnsAux (prev : Option ℚ) : List (ℚ × ℚ) → List ℚ
  | [] => []
  | pr :: rest =>
    let y := adjustStep prev (pr.1 + 360 - pr.2)
    y :: doCalculationsForColumnsAux (some y) rest

/-- `doCalculationsForColumns`: the two-planet synodic combination transform,
with `prevCalculatedValue` starting as `None`. -/
def doCalculationsForColumns (ps : List (ℚ × ℚ)) : List ℚ :=
  doCalculationsForColumnsAux none ps

/-- Modelled from the spec:  section 4.2's per-index adjustment as written
there, namely both while-loops run in sequence ("While output[i-1] <
candidate - threshold: candidate -= 360.  While output[i-1] >= candidate +
threshold: candidate += 360."), rather than the script's `elif` chain.  The
two loops themselves are the same loops as in the script. -/
def specAdjust (p x : ℚ) : ℚ := incAdjust p (decAdjust p x)

/-- Modelled from the spec:  the section 4.2 algorithm over the whole series
(output[0] = input[0]; later entries use `specAdjust` against the previous
output value). -/
def specUnwrapAux (prev : Option ℚ) : List ℚ → List ℚ
  | [] => []
  | x :: xs =>
    let y := match prev with
      | none => x
      | some p => specAdjust p x
    y :: specUnwrapAux (some y) xs

/-- Modelled from the spec: top-level section 4.2 unwrap. -/
def specUnwrap (xs : List ℚ) : List ℚ := specUnwrapAux none xs

/-- A CSV cell of the ephemeris input, tagged by whether Python's `float()`
accepts its text: `num q` is a cell whose text parses as the number `q`,
`raw s` is a cell whose text `s` does not parse as a float. -/
inductive Cell where
  | num (q : ℚ)
  | raw (s : String)
deriving DecidableEq

/-- Python's `float(cell)`: returns the value, or raises `ValueError` with
the CPython message (which quotes only the offending text). -/
def pyFloat : Cell → Except String ℚ
  | .num q => .ok q
  | .raw s => .error ("could not convert string to float: \x27" ++ s ++ "\x27")

/-- Python's `row[col]`: raises `IndexError` when the row is too short. -/
def getCell (row : List Cell) (col : ℕ) : Except String Cell :=
  match row[col]? with
  | some c => .ok c
  | none => .error "list index out of range"

/-- Decides whether reading column `col` of a row would fail `float()`
conversion (missing cell, or text that does not parse). -/
def isBadCell : Option Cell → Bool
  | some (Cell.num _) => false
  | _ => true

/-- The row loop of `doCalculationsForColumn` at the string level: each
iteration evaluates `float(listOfDataValues[i][planetColumn])` (which can
raise) and appends the adjusted value to the row.  The script has no
try/except around this loop, so the first failure aborts the whole run; the
exception propagation of Python is modelled by the explicit `Except`
matches. -/
def doCalculationsForColumnCellsAux (prev : Option ℚ) :
    List (List Cell) → ℕ → Except String (List (List Cell))
  | [], _ => .ok []
  | row :: rest, col =>
    match getCell row col with
    | .error e => .error e
    | .ok c =>
      match pyFloat c with
      | .error e => .error e
      | .ok x =>
        let y := adjustStep prev x
        match doCalculationsForColumnCellsAux (some y) rest col with
        | .error e => .error e
        | .ok rest2 => .ok ((row ++ [Cell.num y]) :: rest2)

/-- `doCalculationsForColumn` at the string level, starting with
`prevCalculatedValue = None`. -/
def doCalculationsForColumnCells (rows : List (List Cell)) (col : ℕ) :
    Except String (List (List Cell)) :=
  doCalculationsForColumnCellsAux none rows col

/-- Unfolding lemma for `decAdjust` when the loop guard holds. -/
theorem decAdjust_iter (p x : ℚ) (h : p < x - maximumIncrement) :
    decAdjust p x = decAdjust p (x - 360) := by
  rw [decAdjust, if_pos h]

/-- Unfolding lemma for `decAdjust` when the loop guard fails. -/
theorem decAdjust_base (p x : ℚ) (h : ¬ p < x - maximumIncrement) :
    decAdjust p x = x := by
  rw [decAdjust, if_neg h]

/-- Unfolding lemma for `incAdjust` when the loop guard holds. -/
theorem incAdjust_iter (p x : ℚ) (h : p ≥ x + maximumIncrement) :
    incAdjust p x = incAdjust p (x + 360) := by
  rw [incAdjust, if_pos h]

/-- Unfolding lemma for `incAdjust` when the loop guard fails. -/
theorem incAdjust_base (p x : ℚ) (h : ¬ p ≥ x + maximumIncrement) :
    incAdjust p x = x := by
  rw [incAdjust, if_neg h]

/-- On exit of the decreasing loop its guard is false. -/
theorem decAdjust_exit (p x : ℚ) : ¬ p < decAdjust p x - maximumIncrement := by
  induction x using decAdjust.induct p with
  | case1 x hlt ih => rw [decAdjust_iter p x hlt]; exact ih
  | case2 x hge => rw [decAdjust_base p x hge]; exact hge

/-- If the decreasing loop runs at least once, its result overshoots the
previous value by less than one period minus the threshold. -/
theorem decAdjust_lower (p x : ℚ) (h : p < x - maximumIncrement) :
    p - 30 < decAdjust p x := by
  induction x using decAdjust.induct p with
  | case1 x hlt ih =>
    rw [decAdjust_iter p x hlt]
    by_cases h2 : p < (x - 360) - maximumIncrement
    · exact ih h2
    · rw [decAdjust_base p (x - 360) h2]
      have hm : maximumIncrement = 330 := rfl
      rw [hm] at hlt
      linarith
  | case2 x hge => exact absurd h hge

/-- On exit of the increasing loop its guard is false. -/
theorem incAdjust_exit (p x : ℚ) : ¬ p ≥ incAdjust p x + maximumIncrement := by
  induction x using incAdjust.induct p with
  | case1 x hge ih => rw [incAdjust_iter p x hge]; exact ih
  | case2 x hlt => rw [incAdjust_base p x hlt]; exact hlt

/-- If the increasing loop runs at least once, its result stays within 30 of
the previous value from above. -/
theorem incAdjust_upper (p x : ℚ) (h : p ≥ x + maximumIncrement) :
    incAdjust p x ≤ p + 30 := by
  induction x using incAdjust.induct p with
  | case1 x hge ih =>
    rw [incAdjust_iter p x hge]
    by_cases h2 : p ≥ (x + 360) + maximumIncrement
    · exact ih h2
    · rw [incAdjust_base p (x + 360) h2]
      have hm : maximumIncrement = 330 := rfl
      rw [hm] at hge
      linarith
  | case2 x hlt => exact absurd h hlt

/-- The decreasing loop subtracts a (finite, nonnegative) number of whole
periods. -/
theorem decAdjust_count (p x : ℚ) :
    ∃ n : ℕ, decAdjust p x = x - 360 * n := by
  induction x using decAdjust.induct p with
  | case1 x hlt ih =>
    obtain ⟨n, hn⟩ := ih
    refine ⟨n + 1, ?_⟩
    rw [decAdjust_iter p x hlt, hn]
    push_cast
    ring
  | case2 x hge => exact ⟨0, by rw [decAdjust_base p x hge]; push_cast; ring⟩

/-- The increasing loop adds a (finite, nonnegative) number of whole
periods. -/
theorem incAdjust_count (p x : ℚ) :
    ∃ n : ℕ, incAdjust p x = x + 360 * n := by
  induction x using incAdjust.induct p with
  | case1 x hge ih =>
    obtain ⟨n, hn⟩ := ih
    refine ⟨n + 1, ?_⟩
    rw [incAdjust_iter p x hge, hn]
    push_cast
    ring
  | case2 x hlt => exact ⟨0, by rw [incAdjust_base p x hlt]; push_cast; ring⟩

/-- Unfolding lemma for `adjustStep` on a present previous value. -/
theorem adjustStep_some (p curr : ℚ) :
    adjustStep (some p) curr =
      if p < curr - maximumIncrement then decAdjust p curr
      else if p ≥ curr + maximumIncrement then incAdjust p curr
      else curr := rfl

/-- After one adjustment step against a previous value `p`, the new value
lies in the half-open band `(p - 330, p + 330]`. -/
theorem adjustStep_bounds (p x : ℚ) :
    -maximumIncrement < adjustStep (some p) x - p ∧
    adjustStep (some p) x - p ≤ maximumIncrement := by
  have hm : maximumIncrement = 330 := rfl
  rw [adjustStep_some]
  by_cases h1 : p < x - maximumIncrement
  · rw [if_pos h1]
    have hexit := decAdjust_exit p x
    have hlow := decAdjust_lower p x h1
    push_neg at hexit
    constructor <;> linarith [hm]
  · rw [if_neg h1]
    by_cases h2 : p ≥ x + maximumIncrement
    · rw [if_pos h2]
      have hexit := incAdjust_exit p x
      have hup := incAdjust_upper p x h2
      push_neg at hexit
      constructor <;> linarith [hm]
    · rw [if_neg h2]
      push_neg at h1 h2
      constructor <;> linarith [hm]

/-- Each adjusted value differs from the raw value by an integer multiple of
360. -/
theorem adjustStep_congr (prev : Option ℚ) (x : ℚ) :
    ∃ k : ℤ, adjustStep prev x = x + 360 * k := by
  match prev with
  | none => exact ⟨0, by simp [adjustStep]⟩
  | some p =>
    rw [adjustStep_some]
    by_cases h1 : p < x - maximumIncrement
    · rw [if_pos h1]
      obtain ⟨n, hn⟩ := decAdjust_count p x
      exact ⟨-(n : ℤ), by rw [hn]; push_cast; ring⟩
    · rw [if_neg h1]
      by_cases h2 : p ≥ x + maximumIncrement
      · rw [if_pos h2]
        obtain ⟨n, hn⟩ := incAdjust_count p x
        exact ⟨(n : ℤ), by rw [hn]; push_cast; ring⟩
      · rw [if_neg h2]
        exact ⟨0, by push_cast; ring⟩

/-- Adjacent-output relation claimed (in amended form) for the unwrap
transform. -/
def adjacentOk (a b : ℚ) : Prop :=
  -maximumIncrement < b - a ∧ b - a ≤ maximumIncrement

/-- The series produced from a previous value `p` chains correctly starting
at `p`. -/
theorem columnAux_chain (p : ℚ) (xs : List ℚ) :
    List.Chain' adjacentOk (p :: doCalculationsForColumnAux (some p) xs) := by
  induction xs generalizing p with
  | nil => simp [doCalculationsForColumnAux]
  | cons x xs ih =>
    have hb := adjustStep_bounds p x
    exact List.Chain'.cons ⟨hb.1, hb.2⟩ (ih (adjustStep (some p) x))

/-- The unwrap output chains: every adjacent pair differs by at most 330,
strictly more than -330 in signed difference. -/
theorem column_chain (xs : List ℚ) :
    List.Chain' adjacentOk (doCalculationsForColumn xs) := by
  cases xs with
  | nil => simp [doCalculationsForColumn, doCalculationsForColumnAux]
  | cons x xs => exact columnAux_chain x xs

/-- Pointwise congruence mod 360 between unwrap input and output, stated via
optional indexing. -/
theorem columnAux_congr (prev : Option ℚ) (xs : List ℚ) (i : ℕ) (x y : ℚ)
    (hx : xs[i]? = some x)
    (hy : (doCalculationsForColumnAux prev xs)[i]? = some y) :
    ∃ k : ℤ, y = x + 360 * k := by
  induction xs generalizing prev i with
  | nil => simp at hx
  | cons a xs ih =>
    cases i with
    | zero =>
      have hx1 : a = x := by simpa using hx
      have hy1 : adjustStep prev a = y := by
        simpa [doCalculationsForColumnAux] using hy
      obtain ⟨k, hk⟩ := adjustStep_congr prev a
      exact ⟨k, by rw [← hy1, ← hx1, hk]⟩
    | succ n =>
      have hx1 : xs[n]? = some x := by simpa using hx
      have hy1 :
          (doCalculationsForColumnAux (some (adjustStep prev a)) xs)[n]? = some y := by
        simpa [doCalculationsForColumnAux] using hy
      exact ih _ n hx1 hy1

/-- The unwrap transform preserves the number of rows. -/
theorem columnAux_length (prev : Option ℚ) (xs : List ℚ) :
    (doCalculationsForColumnAux prev xs).length = xs.length := by
  induction xs generalizing prev with
  | nil => rfl
  | cons x xs ih => simp [doCalculationsForColumnAux, ih]

/-- The combination transform preserves the number of rows. -/
theorem columnsAux_length (prev : Option ℚ) (ps : List (ℚ × ℚ)) :
    (doCalculationsForColumnsAux prev ps).length = ps.length := by
  induction ps generalizing prev with
  | nil => rfl
  | cons p ps ih => simp [doCalculationsForColumnsAux, ih]

/-- The script's `elif` chain computes the same value as the spec's two
sequential while loops. -/
theorem specAdjust_eq_adjustStep (p x : ℚ) :
    specAdjust p x = adjustStep (some p) x := by
  unfold specAdjust
  rw [adjustStep_some]
  by_cases h1 : p < x - maximumIncrement
  · rw [if_pos h1]
    have hr := decAdjust_lower p x h1
    have hm : maximumIncrement = 330 := rfl
    have hno : ¬ p ≥ decAdjust p x + maximumIncrement := by
      push_neg
      linarith [hm]
    rw [incAdjust_base p (decAdjust p x) hno]
  · rw [if_neg h1, decAdjust_base p x h1]
    by_cases h2 : p ≥ x + maximumIncrement
    · rw [if_pos h2]
    · rw [if_neg h2]
      exact incAdjust_base p x h2

/-- The whole spec fold equals the whole script fold. -/
theorem specUnwrapAux_eq (prev : Option ℚ) (xs : List ℚ) :
    specUnwrapAux prev xs = doCalculationsForColumnAux prev xs := by
  induction xs generalizing prev with
  | nil => rfl
  | cons x xs ih =>
    cases prev with
    | none => simp [specUnwrapAux, doCalculationsForColumnAux, adjustStep, ih]
    | some p =>
      simp [specUnwrapAux, doCalculationsForColumnAux,
        specAdjust_eq_adjustStep, ih]

/-- The two-column fold equals the one-column fold over the pointwise
synodic differences. -/
theorem columnsAux_eq_columnAux (prev : Option ℚ) (ps : List (ℚ × ℚ)) :
    doCalculationsForColumnsAux prev ps =
      doCalculationsForColumnAux prev (ps.map (fun pr => pr.1 + 360 - pr.2)) := by
  induction ps generalizing prev with
  | nil => rfl
  | cons p ps ih =>
    simp [doCalculationsForColumnsAux, doCalculationsForColumnAux, ih]

/-- Mapping the synodic formula over zipped columns is zipWith of the
formula. -/
theorem map_zip_synodic (f s : List ℚ) :
    (f.zip s).map (fun pr => pr.1 + 360 - pr.2) =
      List.zipWith (fun a b => a + 360 - b) f s := by
  induction f generalizing s with
  | nil => simp
  | cons a f ih =>
    cases s with
    | nil => simp
    | cons b s => simp [ih]

/-- If some row has a bad cell in the scanned column, the column computation
raises. -/
theorem columnCellsAux_error (rows : List (List Cell)) (col : ℕ)
    (prev : Option ℚ)
    (hbad : ∃ row ∈ rows, isBadCell row[col]? = true) :
    ∃ msg, doCalculationsForColumnCellsAux prev rows col = .error msg := by
  induction rows generalizing prev with
  | nil => simp at hbad
  | cons row rest ih =>
    cases hcell : row[col]? with
    | none =>
      refine ⟨"list index out of range", ?_⟩
      simp [doCalculationsForColumnCellsAux, getCell, hcell]
    | some c =>
      cases c with
      | raw s =>
        refine ⟨"could not convert string to float: \x27" ++ s ++ "\x27", ?_⟩
        simp [doCalculationsForColumnCellsAux, getCell, hcell, pyFloat]
      | num q =>
        rcases hbad with ⟨r, hr, hbadr⟩
        rcases List.mem_cons.mp hr with hEq | hmem
        · subst hEq
          rw [hcell] at hbadr
          simp [isBadCell] at hbadr
        · obtain ⟨msg, hmsg⟩ := ih (some (adjustStep prev q)) ⟨r, hmem, hbadr⟩
          refine ⟨msg, ?_⟩
          simp [doCalculationsForColumnCellsAux, getCell, hcell, pyFloat, hmsg]

/-- C1 (counterexample): on the in-range longitude series `[0, 330]` the
unwrap output is `[0, 330]`, whose adjacent pair differs by exactly 330 in
absolute value — not strictly less than 330 as the claim states. -/
theorem unwrapStrictBoundCex :
    doCalculationsForColumn [0, 330] = [0, 330] ∧
    ¬ (|(330 : ℚ) - 0| < 330) ∧
    (0 ≤ (0:ℚ) ∧ (0:ℚ) < 360 ∧ 0 ≤ (330:ℚ) ∧ (330:ℚ) < 360) := by
  refine ⟨?_, by norm_num, by norm_num⟩
  norm_num [doCalculationsForColumn, doCalculationsForColumnAux, adjustStep,
    maximumIncrement]

/-- C1 (amended): every unwrap output value is congruent to its input value
modulo 360, and every adjacent pair of output values has signed difference
in the band `(-330, 330]` — so at most 330 in absolute value, with 330
attained (rather than the claimed strict bound). -/
theorem unwrapBandCongruence (xs : List ℚ) (i : ℕ) (x y : ℚ)
    (hx : xs[i]? = some x)
    (hy : (doCalculationsForColumn xs)[i]? = some y) :
    (∃ k : ℤ, y = x + 360 * k) ∧
    List.Chain' adjacentOk (doCalculationsForColumn xs) ∧
    (doCalculationsForColumn xs).length = xs.length :=
  ⟨columnAux_congr none xs i x y hx hy, column_chain xs,
    columnAux_length none xs⟩

/-- Witness for C1 (amended) at the concrete series `[350, 5]`: index 1 maps
input 5 to output 365. -/
theorem unwrapBandCongruenceWitness :
    (([350, 5] : List ℚ)[1]? = some 5) ∧
    ((doCalculationsForColumn [350, 5])[1]? = some 365) ∧
    ((∃ k : ℤ, (365 : ℚ) = 5 + 360 * k) ∧
      List.Chain' adjacentOk (doCalculationsForColumn [350, 5]) ∧
      (doCalculationsForColumn [350, 5]).length = ([350, 5] : List ℚ).length) :=
  ⟨by decide,
   by norm_num [doCalculationsForColumn, doCalculationsForColumnAux, adjustStep,
      maximumIncrement, incAdjust_iter, incAdjust_base],
   unwrapBandCongruence [350, 5] 1 5 365 (by decide)
     (by norm_num [doCalculationsForColumn, doCalculationsForColumnAux, adjustStep,
        maximumIncrement, incAdjust_iter, incAdjust_base])⟩

/-- C2: the script's unwrap computes exactly the section 4.2 algorithm
(sequential while-loop formulation), and on input `[350, 355, 2, 8]` the
output is `[350, 355, 362, 368]`. -/
theorem unwrapRefinesSpecAlgorithm :
    (∀ xs : List ℚ, specUnwrap xs = doCalculationsForColumn xs) ∧
    doCalculationsForColumn [350, 355, 2, 8] = [350, 355, 362, 368] := by
  constructor
  · intro xs
    exact specUnwrapAux_eq none xs
  · norm_num [doCalculationsForColumn, doCalculationsForColumnAux, adjustStep,
      maximumIncrement, incAdjust_iter, incAdjust_base]

/-- C3: for equal-length faster/slower columns, the two-column combination
fold equals the one-column unwrap fold applied to the pointwise synodic
differences `faster + 360 - slower`, and has the same length as the
inputs. -/
theorem combineRefinesUnwrapOfSynodicDifference (f s : List ℚ)
    (h : f.length = s.length) :
    doCalculationsForColumns (f.zip s) =
      doCalculationsForColumn (List.zipWith (fun a b => a + 360 - b) f s) ∧
    (doCalculationsForColumns (f.zip s)).length = f.length := by
  constructor
  · unfold doCalculationsForColumns doCalculationsForColumn
    rw [columnsAux_eq_columnAux, map_zip_synodic]
  · unfold doCalculationsForColumns
    rw [columnsAux_length]
    simp [List.length_zip, h]

/-- Witness for C3 at the concrete columns `[10, 200]` and `[5, 40]`. -/
theorem combineRefinesUnwrapWitness :
    (([10, 200] : List ℚ).length = ([5, 40] : List ℚ).length) ∧
    (doCalculationsForColumns (([10, 200] : List ℚ).zip [5, 40]) =
      doCalculationsForColumn
        (List.zipWith (fun a b => a + 360 - b) ([10, 200] : List ℚ) [5, 40]) ∧
    (doCalculationsForColumns (([10, 200] : List ℚ).zip [5, 40])).length =
      ([10, 200] : List ℚ).length) :=
  ⟨rfl, combineRefinesUnwrapOfSynodicDifference [10, 200] [5, 40] rfl⟩

/-- C6 (amended): whenever some row's scanned planet column holds a missing
or non-`float()`-parsable cell, the column computation aborts with an
uncaught error (modelled as `Except.error`); no value is substituted and no
result is produced. -/
theorem columnBadCellAborts (rows : List (List Cell)) (col : ℕ)
    (hbad : ∃ row ∈ rows, isBadCell row[col]? = true) :
    ∃ msg, doCalculationsForColumnCells rows col = .error msg :=
  columnCellsAux_error rows col none hbad

/-- Witness for C6 (amended): a two-row input whose second row is too short
for column 0. -/
theorem columnBadCellAbortsWitness :
    (∃ row ∈ [[Cell.num 1], ([] : List Cell)], isBadCell row[0]? = true) ∧
    (∃ msg, doCalculationsForColumnCells [[Cell.num 1], []] 0 = .error msg) :=
  ⟨by decide, columnBadCellAborts [[Cell.num 1], []] 0 (by decide)⟩

/-- C6 (counterexample to the claim as stated): failures at different rows
and columns produce the identical CPython `ValueError` message, which quotes
only the cell text and contains no digits at all — so the message does not
identify the failing row or column. -/
theorem badCellMessageCex :
    doCalculationsForColumnCells [[Cell.num 1], [Cell.raw "xyz"]] 0 =
      .error "could not convert string to float: \x27xyz\x27" ∧
    doCalculationsForColumnCells
      [[Cell.num 1, Cell.num 2, Cell.num 3],
       [Cell.num 4, Cell.num 5, Cell.num 6],
       [Cell.num 7, Cell.num 8, Cell.raw "xyz"]] 2 =
      .error "could not convert string to float: \x27xyz\x27" ∧
    ("could not convert string to float: \x27xyz\x27".toList.all
      (fun c => !c.isDigit)) = true := by
  refine ⟨?_, ?_, by decide⟩ <;> rfl

/-- C10: both adjustment loops terminate — each performs a finite number of
whole-period steps after which its guard is false — and the two row folds
are total, length-preserving functions. -/
theorem adjustmentLoopsTerminate :
    (∀ p x : ℚ, ∃ n : ℕ, decAdjust p x = x - 360 * n ∧
      ¬ p < (x - 360 * n) - maximumIncrement) ∧
    (∀ p x : ℚ, ∃ n : ℕ, incAdjust p x = x + 360 * n ∧
      ¬ p ≥ (x + 360 * n) + maximumIncrement) ∧
    (∀ xs : List ℚ, (doCalculationsForColumn xs).length = xs.length) ∧
    (∀ ps : List (ℚ × ℚ), (doCalculationsForColumns ps).length = ps.length) := by
  refine ⟨fun p x => ?_, fun p x => ?_,
    fun xs => columnAux_length none xs, fun ps => columnsAux_length none ps⟩
  · obtain ⟨n, hn⟩ := decAdjust_count p x
    refine ⟨n, hn, ?_⟩
    have h := decAdjust_exit p x
    rw [hn] at h
    exact h
  · obtain ⟨n, hn⟩ := incAdjust_count p x
    refine ⟨n, hn, ?_⟩
    have h := incAdjust_exit p x
    rw [hn] at h
    exact h

end Ephemeris

namespace Weekly

/-- CPython `datetime._is_leap`. -/
def isLeap (y : ℤ) : Bool := y % 4 == 0 && (y % 100 != 0 || y % 400 == 0)

/-- CPython `datetime._days_before_year` (Python `//` is floor division; the
divisors are positive and Lean's Euclidean `Int` division agrees with floor
division for positive divisors). -/
def daysBeforeYear (y : ℤ) : ℤ :=
  (y - 1) * 365 + (y - 1) / 4 - (y - 1) / 100 + (y - 1) / 400

/-- CPython `datetime._DAYS_BEFORE_MONTH` lookup (month 1..12). -/
def daysBeforeMonthTable (m : ℤ) : ℤ :=
  [0, 31, 59, 90, 120, 151, 181, 212, 243, 273, 304, 334].getD (m - 1).toNat 0

/-- CPython `datetime._days_in_month`. -/
def daysInMonth (y m : ℤ) : ℤ :=
  if m = 2 ∧ isLeap y then 29
  else [31, 28, 31, 30, 31, 30, 31, 31, 30, 31, 30, 31].getD (m - 1).toNat 0

/-- CPython `datetime._days_before_month`. -/
def daysBeforeMonth (y m : ℤ) : ℤ :=
  daysBeforeMonthTable m + (if 2 < m ∧ isLeap y then 1 else 0)

/-- CPython `datetime._ymd2ord`: proleptic-Gregorian ordinal day number. -/
def ymd2ord (y m d : ℤ) : ℤ := daysBeforeYear y + daysBeforeMonth y m + d

/-- CPython `datetime._isoweek1monday`: ordinal of the Monday starting ISO
week 1 of year `y`. -/
def isoweek1monday (y : ℤ) : ℤ :=
  let firstday := ymd2ord y 1 1
  let firstweekday := (firstday + 6) % 7
  let week1monday := firstday - firstweekday
  if 3 < firstweekday then week1monday + 7 else week1monday

/-- CPython `datetime.date.isocalendar`, returning (ISO year, ISO week,
ISO weekday). -/
def isocalendar (y m d : ℤ) : ℤ × ℤ × ℤ :=
  let today := ymd2ord y m d
  let w1 := isoweek1monday y
  let week := (today - w1) / 7
  let day := (today - w1) % 7
  if week < 0 then
    let y2 := y - 1
    let w1b := isoweek1monday y2
    (y2, (today - w1b) / 7 + 1, (today - w1b) % 7 + 1)
  else if 52 ≤ week ∧ isoweek1monday (y + 1) ≤ today then
    (y + 1, 1, day + 1)
  else
    (y, week + 1, day + 1)

/-- A parsed daily CSV row: the date string plus its parsed (year, month,
day), the four prices, and the two integer fields. -/
structure PriceBar where
  dateStr : String
  year : ℤ
  month : ℤ
  day : ℤ
  openPrice : ℚ
  highPrice : ℚ
  lowPrice : ℚ
  closePrice : ℚ
  volume : ℤ
  openInt : ℤ
deriving DecidableEq

/-- The ISO (year, week) key the script computes for each row via
`d.isocalendar()`. -/
def isoKey (r : PriceBar) : ℤ × ℤ :=
  ((isocalendar r.year r.month r.day).1, (isocalendar r.year r.month r.day).2.1)

/-- The script's currentWeek* accumulator variables. -/
structure WeekBucket where
  dateStr : String
  openPrice : ℚ
  highPrice : ℚ
  lowPrice : ℚ
  closePrice : ℚ
  volume : ℤ
  openInt : ℤ
  isoYear : ℤ
  isoWeek : ℤ
deriving DecidableEq

/-- One emitted weekly output row (the seven formatted fields). -/
structure WeekRow where
  dateStr : String
  openPrice : ℚ
  highPrice : ℚ
  lowPrice : ℚ
  closePrice : ℚ
  volume : ℤ
  openInt : ℤ
deriving DecidableEq

/-- Opening a new week bucket from a row (the `currentWeekHasValues == False`
branch and the new-week branch): open/high/low/close/volume/openInt are taken
directly from the row's fields. -/
def initBucket (r : PriceBar) : WeekBucket :=
  ⟨r.dateStr, r.openPrice, r.highPrice, r.lowPrice, r.closePrice,
    r.volume, r.openInt, (isoKey r).1, (isoKey r).2⟩

/-- Folding a same-week row into the bucket: the row's four price values are
sorted and the extremes compared against the current extrema (the sorted
list's first/last element is its minimum/maximum); close and openInterest
are overwritten, volume is added. -/
def foldRow (b : WeekBucket) (r : PriceBar) : WeekBucket :=
  let smallestValue := min (min (min r.openPrice r.highPrice) r.lowPrice) r.closePrice
  let largestValue := max (max (max r.openPrice r.highPrice) r.lowPrice) r.closePrice
  { b with
    lowPrice := if smallestValue < b.lowPrice then smallestValue else b.lowPrice
    highPrice := if largestValue > b.highPrice then largestValue else b.highPrice
    closePrice := r.closePrice
    volume := b.volume + r.volume
    openInt := r.openInt }

/-- Emitting the bucket as an output line. -/
def emitBucket (b : WeekBucket) : WeekRow :=
  ⟨b.dateStr, b.openPrice, b.highPrice, b.lowPrice, b.closePrice,
    b.volume, b.openInt⟩

/-- The chronological-order error message printed by the script (which also
appends the offending line's text). -/
def orderingErrorMsg : String :=
  "Error: The input file is supposed to be in chronological order!"

/-- The bucket's ISO (year, week) key. -/
def bucketKey (b : WeekBucket) : ℤ × ℤ := (b.isoYear, b.isoWeek)

/-- Strict lexicographic order on ISO (year, week) keys: spelled out, the
script's two error conditions `isoYearNumber < currentWeekIsoYearNumber` and
`isoYearNumber == currentWeekIsoYearNumber and isoWeekNumber <
currentWeekIsoWeekNumber`. -/
def keyLt (a b : ℤ × ℤ) : Prop := a.1 < b.1 ∨ (a.1 = b.1 ∧ a.2 < b.2)

instance (a b : ℤ × ℤ) : Decidable (keyLt a b) :=
  inferInstanceAs (Decidable (a.1 < b.1 ∨ (a.1 = b.1 ∧ a.2 < b.2)))

/-- Reflexive closure of `keyLt`. -/
def keyLe (a b : ℤ × ℤ) : Prop := keyLt a b ∨ a = b

instance (a b : ℤ × ℤ) : Decidable (keyLe a b) :=
  inferInstanceAs (Decidable (keyLt a b ∨ a = b))

/-- The aggregation loop over the remaining rows, given the open bucket: a
row with an ISO key strictly earlier (lexicographically) than the bucket's
exits with status 1; an equal key (`isoYearNumber == currentWeekIsoYearNumber
and isoWeekNumber == currentWeekIsoWeekNumber`) folds the row in; otherwise
(the remaining case is exactly the script's new-week condition, and its
final `else` branch is unreachable by trichotomy) the bucket is emitted and
a new one opened. -/
def aggAux : WeekBucket → List PriceBar → Except String (List WeekRow)
  | b, [] => .ok [emitBucket b]
  | b, r :: rs =>
    if keyLt (isoKey r) (bucketKey b) then
      .error orderingErrorMsg
    else if isoKey r = bucketKey b then
      aggAux (foldRow b r) rs
    else
      match aggAux (initBucket r) rs with
      | .error e => .error e
      | .ok out => .ok (emitBucket b :: out)

/-- `convertDailyToWeekly`: the whole aggregation — the first row opens a
bucket, the loop processes the rest, and the still-open bucket is emitted at
end of input; empty input yields no output rows. -/
def convertDailyToWeekly : List PriceBar → Except String (List WeekRow)
  | [] => .ok []
  | r :: rs => aggAux (initBucket r) rs

/-- Models whether an output file is produced: the script opens and writes
the output file only after the read loop finishes, and every error path
calls `sys.exit(1)` inside the loop, so on error no file is written. -/
def weeklyOutput (rows : List PriceBar) : Option (List WeekRow) :=
  match convertDailyToWeekly rows with
  | .error _ => none
  | .ok out => some out

/-- Proleptic-Gregorian ordinal of a row's date: the row order the spec calls
chronological. -/
def ordOf (r : PriceBar) : ℤ := ymd2ord r.year r.month r.day

/-- Rows are in non-decreasing chronological (date) order. -/
def chronOrdered : List PriceBar → Bool
  | [] => true
  | [_] => true
  | r1 :: r2 :: rs => decide (ordOf r1 ≤ ordOf r2) && chronOrdered (r2 :: rs)

/-- The row's (year, month, day) triple is a calendar date Python's
`datetime.date` accepts. -/
def validDate (r : PriceBar) : Prop :=
  1 ≤ r.year ∧ 1 ≤ r.month ∧ r.month ≤ 12 ∧ 1 ≤ r.day ∧ r.day ≤ daysInMonth r.year r.month

instance (r : PriceBar) : Decidable (validDate r) :=
  inferInstanceAs (Decidable
    (1 ≤ r.year ∧ 1 ≤ r.month ∧ r.month ≤ 12 ∧ 1 ≤ r.day ∧
      r.day ≤ daysInMonth r.year r.month))

/-- The rows' ISO keys are non-decreasing, starting from key `k`. -/
def keysSortedFrom : (ℤ × ℤ) → List PriceBar → Bool
  | _, [] => true
  | k, r :: rs => decide (keyLe k (isoKey r)) && keysSortedFrom (isoKey r) rs

/-- The rows' ISO keys are non-decreasing. -/
def keysSorted : List PriceBar → Bool
  | [] => true
  | r :: rs => keysSortedFrom (isoKey r) rs

/-- Grouping of the rows into maximal consecutive runs with equal ISO key,
represented as (first row of the run, remaining rows of the run). -/
def weekChunksAux : PriceBar → List PriceBar → List PriceBar → List (PriceBar × List PriceBar)
  | h, acc, [] => [(h, acc.reverse)]
  | h, acc, r :: rs =>
    if isoKey r = isoKey h then weekChunksAux h (r :: acc) rs
    else (h, acc.reverse) :: weekChunksAux r [] rs

/-- Top-level chunking of an input into week runs. -/
def weekChunks : List PriceBar → List (PriceBar × List PriceBar)
  | [] => []
  | r :: rs => weekChunksAux r [] rs

/-- The weekly row obtained by opening a bucket on the chunk's first row and
folding in the rest. -/
def summarizeChunk (c : PriceBar × List PriceBar) : WeekRow :=
  emitBucket (c.2.foldl foldRow (initBucket c.1))

/-- The distinct elements of `l` not yet in `seen`, in order of first
encounter. -/
def firstEncAux {K : Type} [DecidableEq K] (seen : List K) : List K → List K
  | [] => []
  | k :: ks => if k ∈ seen then firstEncAux seen ks else k :: firstEncAux (k :: seen) ks

/-- The distinct elements of `l` in order of first encounter. -/
def firstEncounter {K : Type} [DecidableEq K] (l : List K) : List K :=
  firstEncAux [] l

/-- Python `line.split(",")` on the character list (the separator is the
single character `,`). -/
def splitCommaChars : List Char → List (List Char)
  | [] => [[]]
  | c :: cs =>
    match splitCommaChars cs with
    | [] => [[c]]
    | f :: rest => if c = ',' then [] :: f :: rest else (c :: f) :: rest

/-- Python `line.split(",")`. -/
def pySplitComma (line : String) : List String :=
  (splitCommaChars line.toList).map (fun l => String.mk l)

/-- Python `s.strip()`: drop whitespace from both ends. -/
def pyStrip (s : String) : String :=
  String.mk (((s.toList.dropWhile Char.isWhitespace).reverse.dropWhile
    Char.isWhitespace).reverse)

/-- The script's wrong-field-count message (a fixed string: the `{}` in the
source is filled with the expected count 7, not with the line). -/
def fieldCountErrorMsg : String := "Error: Line does not have 7 data fields"

/-- The prefix of the script's bad-date-length message (the stripped date
field is appended). -/
def dateLenErrorMsgPre : String :=
  "Error: dateStr is not the expected number of characters: "

/-- The per-line validation of the read loop: split on commas, check for
exactly 7 fields, strip, check the date field has exactly 10 characters. -/
def validateLine (line : String) : Except String (List String) :=
  let fields := pySplitComma line
  if fields.length ≠ 7 then .error fieldCountErrorMsg
  else
    let dateStr := pyStrip (fields.headD "")
    if dateStr.length ≠ 10 then .error (dateLenErrorMsgPre ++ dateStr)
    else .ok (fields.map pyStrip)

/-- The data lines the read loop processes: everything after the single
skipped header line, with blank lines ignored. -/
def dataLines (lines : List String) : List String :=
  (lines.drop 1).filter (fun l => !(pyStrip l == ""))

/-- The read loop's validation pass over the data lines; the first failing
line aborts (`sys.exit(1)`) and later lines are not processed. -/
def validateLines : List String → Except String (List (List String))
  | [] => .ok []
  | l :: ls =>
    match validateLine l with
    | .error e => .error e
    | .ok fields =>
      match validateLines ls with
      | .error e => .error e
      | .ok rest => .ok (fields :: rest)

/-- Running the per-line validation over the whole file. -/
def validateAll (lines : List String) : Except String (List (List String)) :=
  validateLines (dataLines lines)

/-- Models the output file at the validation layer: errors exit before the
output file is opened. -/
def weeklyValidatedOutput (lines : List String) : Option (List (List String)) :=
  match validateAll lines with
  | .error _ => none
  | .ok rows => some rows

/-- A data line the script rejects: wrong comma-field count, or a stripped
date field that is not exactly 10 characters. -/
def lineMalformed (line : String) : Prop :=
  (pySplitComma line).length ≠ 7 ∨
  (pyStrip ((pySplitComma line).headD "")).length ≠ 10

instance (line : String) : Decidable (lineMalformed line) :=
  inferInstanceAs (Decidable
    ((pySplitComma line).length ≠ 7 ∨
      (pyStrip ((pySplitComma line).headD "")).length ≠ 10))

/-- January 1st has ordinal `daysBeforeYear y + 1`. -/
theorem jan1_eq (y : ℤ) : ymd2ord y 1 1 = daysBeforeYear y + 1 := by
  simp [ymd2ord, daysBeforeMonth, daysBeforeMonthTable, isLeap]

/-- A calendar year spans 365 or 366 ordinals. -/
theorem yearLen_bounds (y : ℤ) :
    365 ≤ daysBeforeYear (y + 1) - daysBeforeYear y ∧
    daysBeforeYear (y + 1) - daysBeforeYear y ≤ 366 := by
  unfold daysBeforeYear
  omega

/-- Exact year length in terms of `isLeap`. -/
theorem yearLen_leap (y : ℤ) :
    daysBeforeYear (y + 1) - daysBeforeYear y = if isLeap y then 366 else 365 := by
  unfold daysBeforeYear isLeap
  split
  · rename_i h
    simp only [Bool.and_eq_true, beq_iff_eq, Bool.or_eq_true, bne_iff_ne] at h
    omega
  · rename_i h
    simp only [Bool.and_eq_true, beq_iff_eq, Bool.or_eq_true, bne_iff_ne] at h
    push_neg at h
    omega

/-- Week 1's Monday is within 3 days of January 1st and always has ordinal
residue 1 mod 7 (ordinal 1 is a Monday). -/
theorem wk1_bounds (y : ℤ) :
    daysBeforeYear y + 1 - 3 ≤ isoweek1monday y ∧
    isoweek1monday y ≤ daysBeforeYear y + 1 + 3 ∧
    isoweek1monday y % 7 = 1 := by
  simp only [isoweek1monday, jan1_eq]
  split <;> omega

/-- Consecutive week-1 Mondays are at least 52 weeks apart (the gap is a
multiple of 7 and at least 359). -/
theorem wk1_succ_ge (y : ℤ) :
    isoweek1monday y + 364 ≤ isoweek1monday (y + 1) := by
  have h1 := wk1_bounds y
  have h2 := wk1_bounds (y + 1)
  have h3 := yearLen_bounds y
  omega

/-- Week-1 Mondays are monotone in the year. -/
theorem wk1_mono {y1 y2 : ℤ} (h : y1 ≤ y2) :
    isoweek1monday y1 ≤ isoweek1monday y2 := by
  have key : ∀ n : ℕ, isoweek1monday y1 ≤ isoweek1monday (y1 + n) := by
    intro n
    induction n with
    | zero => simp
    | succ n ih =>
      have hstep := wk1_succ_ge (y1 + n)
      have harg : (y1 + ((n : ℤ) + 1)) = (y1 + n) + 1 := by ring
      push_cast
      rw [harg]
      omega
  obtain ⟨n, hn⟩ : ∃ n : ℕ, y2 = y1 + n := ⟨(y2 - y1).toNat, by omega⟩
  rw [hn]
  exact key n

/-- Week-1 Mondays of strictly later years are at least 364 later. -/
theorem wk1_lt_add {y1 y2 : ℤ} (h : y1 < y2) :
    isoweek1monday y1 + 364 ≤ isoweek1monday y2 :=
  le_trans (wk1_succ_ge y1) (wk1_mono h)

/-- A valid date's ordinal lies within its calendar year. -/
theorem ymd2ord_bounds (y m d : ℤ) (h1 : 1 ≤ m) (h2 : m ≤ 12)
    (h3 : 1 ≤ d) (h4 : d ≤ daysInMonth y m) :
    daysBeforeYear y + 1 ≤ ymd2ord y m d ∧ ymd2ord y m d ≤ daysBeforeYear (y + 1) := by
  have hleap := yearLen_leap y
  unfold daysInMonth at h4
  unfold ymd2ord daysBeforeMonth daysBeforeMonthTable
  by_cases hl : isLeap y = true <;>
    [simp only [hl, if_true, and_true] at h4 hleap ⊢;
     simp only [hl, if_false, and_false, Bool.false_eq_true] at h4 hleap ⊢] <;>
    interval_cases m <;>
    simp_all <;> omega

/-- Characterization of `isocalendar` for valid dates: the ISO year `Y`
satisfies `isoweek1monday Y ≤ ord < isoweek1monday (Y+1)` and the ISO week
counts whole weeks from `isoweek1monday Y`, starting at 1. -/
theorem isocalendar_charact (y m d : ℤ) (h1 : 1 ≤ m) (h2 : m ≤ 12)
    (h3 : 1 ≤ d) (h4 : d ≤ daysInMonth y m) :
    isoweek1monday (isocalendar y m d).1 ≤ ymd2ord y m d ∧
    ymd2ord y m d < isoweek1monday ((isocalendar y m d).1 + 1) ∧
    (isocalendar y m d).2.1 =
      (ymd2ord y m d - isoweek1monday (isocalendar y m d).1) / 7 + 1 := by
  have hb := ymd2ord_bounds y m d h1 h2 h3 h4
  have hw0 := wk1_bounds (y - 1)
  have hw1 := wk1_bounds y
  have hw2 := wk1_bounds (y + 1)
  have hg0 : isoweek1monday (y - 1) + 364 ≤ isoweek1monday y := by
    have := wk1_succ_ge (y - 1)
    simpa using this
  have hg1 := wk1_succ_ge y
  have hg2 := wk1_succ_ge (y + 1)
  have hyl := yearLen_bounds y
  have hyl0 : 365 ≤ daysBeforeYear y - daysBeforeYear (y - 1) ∧
      daysBeforeYear y - daysBeforeYear (y - 1) ≤ 366 := by
    have := yearLen_bounds (y - 1)
    simpa using this
  simp only [isocalendar]
  split
  · rename_i hneg
    dsimp only
    refine ⟨by omega, ?_, rfl⟩
    simp only [sub_add_cancel]
    omega
  · split
    · rename_i hneg hcond
      dsimp only
      refine ⟨?_, ?_, ?_⟩
      · exact hcond.2
      · omega
      · omega
    · rename_i hneg hcond
      dsimp only
      push_neg at hcond
      refine ⟨?_, ?_, rfl⟩ <;> omega

/-- Key order is irreflexive. -/
theorem keyLt_irrefl (a : ℤ × ℤ) : ¬ keyLt a a := by
  unfold keyLt
  omega

/-- Key order is asymmetric. -/
theorem keyLt_asymm {a b : ℤ × ℤ} (h : keyLt a b) : ¬ keyLt b a := by
  unfold keyLt at *
  omega

/-- Key order (reflexive) is reflexive. -/
theorem keyLe_refl (a : ℤ × ℤ) : keyLe a a := Or.inr rfl

/-- A `keyLe` followed by a `keyLt` gives a `keyLt`. -/
theorem keyLt_of_keyLe_of_keyLt {a b c : ℤ × ℤ} (h1 : keyLe a b) (h2 : keyLt b c) :
    keyLt a c := by
  rcases h1 with h1 | rfl
  · unfold keyLt at *
    rcases a with ⟨a1, a2⟩
    rcases b with ⟨b1, b2⟩
    rcases c with ⟨c1, c2⟩
    simp_all
    omega
  · exact h2

/-- `keyLe` is transitive. -/
theorem keyLe_trans {a b c : ℤ × ℤ} (h1 : keyLe a b) (h2 : keyLe b c) :
    keyLe a c := by
  rcases h2 with h2 | rfl
  · exact Or.inl (keyLt_of_keyLe_of_keyLt h1 h2)
  · exact h1

/-- Total comparison: a key not below and not equal to another is above it. -/
theorem keyLt_of_not (a b : ℤ × ℤ) (h1 : ¬ keyLt a b) (h2 : a ≠ b) :
    keyLt b a := by
  unfold keyLt at *
  rcases a with ⟨a1, a2⟩
  rcases b with ⟨b1, b2⟩
  simp_all [Prod.ext_iff]
  omega

/-- Folding a row does not change the bucket's key. -/
theorem bucketKey_foldRow (b : WeekBucket) (r : PriceBar) :
    bucketKey (foldRow b r) = bucketKey b := rfl

/-- The key of a fresh bucket is its row's key. -/
theorem bucketKey_initBucket (r : PriceBar) :
    bucketKey (initBucket r) = isoKey r := rfl

/-- Folding any rows does not change the bucket's key. -/
theorem bucketKey_foldl (t : List PriceBar) (b : WeekBucket) :
    bucketKey (t.foldl foldRow b) = bucketKey b := by
  induction t generalizing b with
  | nil => rfl
  | cons r t ih => rw [List.foldl_cons, ih, bucketKey_foldRow]

/-- Unfolding of `keysSortedFrom` on a cons. -/
theorem keysSortedFrom_cons (k : ℤ × ℤ) (r : PriceBar) (rs : List PriceBar) :
    keysSortedFrom k (r :: rs) = true ↔
      keyLe k (isoKey r) ∧ keysSortedFrom (isoKey r) rs = true := by
  simp [keysSortedFrom]

/-- Monotonicity bridge: the ISO (year, week) key is monotone in the
calendar date. -/
theorem isoKey_mono (r1 r2 : PriceBar) (h1 : validDate r1) (h2 : validDate r2)
    (h : ordOf r1 ≤ ordOf r2) : keyLe (isoKey r1) (isoKey r2) := by
  obtain ⟨-, hm1a, hm1b, hd1a, hd1b⟩ := h1
  obtain ⟨-, hm2a, hm2b, hd2a, hd2b⟩ := h2
  have c1 := isocalendar_charact r1.year r1.month r1.day hm1a hm1b hd1a hd1b
  have c2 := isocalendar_charact r2.year r2.month r2.day hm2a hm2b hd2a hd2b
  unfold ordOf at h
  set t1 := ymd2ord r1.year r1.month r1.day with ht1
  set t2 := ymd2ord r2.year r2.month r2.day with ht2
  set Y1 := (isocalendar r1.year r1.month r1.day).1 with hY1
  set Y2 := (isocalendar r2.year r2.month r2.day).1 with hY2
  set W1 := (isocalendar r1.year r1.month r1.day).2.1 with hW1
  set W2 := (isocalendar r2.year r2.month r2.day).2.1 with hW2
  have hk1 : isoKey r1 = (Y1, W1) := rfl
  have hk2 : isoKey r2 = (Y2, W2) := rfl
  obtain ⟨ha1, hb1, hw1⟩ := c1
  obtain ⟨ha2, hb2, hw2⟩ := c2
  have hY : Y1 ≤ Y2 := by
    by_contra hcon
    push_neg at hcon
    have hmono : isoweek1monday (Y2 + 1) ≤ isoweek1monday Y1 := wk1_mono (by omega)
    omega
  rcases lt_or_eq_of_le hY with hlt | heq
  · refine Or.inl (Or.inl ?_)
    rw [hk1, hk2]
    exact hlt
  · have hWle : W1 ≤ W2 := by
      rw [← heq] at hw2
      omega
    rcases lt_or_eq_of_le hWle with hWlt | hWeq
    · refine Or.inl (Or.inr ?_)
      rw [hk1, hk2]
      exact ⟨heq, hWlt⟩
    · refine Or.inr ?_
      rw [hk1, hk2, heq, hWeq]

/-- Chronologically ordered valid rows have non-decreasing ISO keys. -/
theorem chron_keysSorted (rows : List PriceBar) (hv : ∀ r ∈ rows, validDate r)
    (hc : chronOrdered rows = true) : keysSorted rows = true := by
  induction rows with
  | nil => rfl
  | cons r rest ih =>
    cases rest with
    | nil => rfl
    | cons r2 rs =>
      simp only [chronOrdered, Bool.and_eq_true, decide_eq_true_eq] at hc
      obtain ⟨hord, hc2⟩ := hc
      have hkey := isoKey_mono r r2 (hv r (by simp)) (hv r2 (by simp)) hord
      have ih2 := ih (fun x hx => hv x (List.mem_cons_of_mem r hx)) hc2
      simp only [keysSorted] at ih2 ⊢
      rw [keysSortedFrom_cons]
      exact ⟨hkey, ih2⟩

/-- Under sorted keys, the aggregation loop succeeds and produces exactly
one summarized row per key run; stated with the accumulated bucket made
explicit. -/
theorem aggAux_eq_chunks (rows : List PriceBar) :
    ∀ (h : PriceBar) (acc : List PriceBar),
      keysSortedFrom (isoKey h) rows = true →
      (∀ a ∈ acc, isoKey a = isoKey h) →
      aggAux (acc.reverse.foldl foldRow (initBucket h)) rows =
        .ok ((weekChunksAux h acc rows).map summarizeChunk) := by
  induction rows with
  | nil =>
    intro h acc _ _
    simp [aggAux, weekChunksAux, summarizeChunk]
  | cons r rs ih =>
    intro h acc hsort hacc
    rw [keysSortedFrom_cons] at hsort
    obtain ⟨hle, hsort2⟩ := hsort
    have hbk : bucketKey (acc.reverse.foldl foldRow (initBucket h)) = isoKey h := by
      rw [bucketKey_foldl, bucketKey_initBucket]
    by_cases heq : isoKey r = isoKey h
    · have hnlt : ¬ keyLt (isoKey r) (bucketKey (acc.reverse.foldl foldRow (initBucket h))) := by
        rw [hbk, heq]
        exact keyLt_irrefl _
      rw [aggAux, if_neg hnlt, if_pos (by rw [hbk]; exact heq)]
      have hfold : foldRow (acc.reverse.foldl foldRow (initBucket h)) r =
          ((r :: acc).reverse.foldl foldRow (initBucket h)) := by
        rw [List.reverse_cons, List.foldl_append]
        rfl
      rw [hfold]
      have hacc2 : ∀ a ∈ r :: acc, isoKey a = isoKey h := by
        intro a ha
        rcases List.mem_cons.mp ha with rfl | ha2
        · exact heq
        · exact hacc a ha2
      rw [ih h (r :: acc) (by rw [← heq]; exact hsort2) hacc2]
      rw [weekChunksAux, if_pos heq]
    · have hlt : keyLt (isoKey h) (isoKey r) := by
        rcases hle with hlt | heqk
        · exact hlt
        · exact absurd heqk.symm heq
      have hnlt : ¬ keyLt (isoKey r) (bucketKey (acc.reverse.foldl foldRow (initBucket h))) := by
        rw [hbk]
        exact keyLt_asymm hlt
      rw [aggAux, if_neg hnlt, if_neg (by rw [hbk]; exact heq)]
      have hrec := ih r [] hsort2 (by simp)
      simp only [List.reverse_nil, List.foldl_nil] at hrec
      rw [hrec]
      rw [weekChunksAux, if_neg heq]
      rfl

/-- Under sorted keys, the whole aggregation succeeds, producing the
summaries of the week chunks in order. -/
theorem convert_eq_chunks (rows : List PriceBar) (hsort : keysSorted rows = true) :
    convertDailyToWeekly rows = .ok ((weekChunks rows).map summarizeChunk) := by
  cases rows with
  | nil => rfl
  | cons r rs =>
    have h := aggAux_eq_chunks rs r [] hsort (by simp)
    simp only [List.reverse_nil, List.foldl_nil] at h
    exact h

/-- Somewhere in the remaining rows a key strictly decreases relative to the
running key `k`. -/
def violationFrom : (ℤ × ℤ) → List PriceBar → Bool
  | _, [] => false
  | k, r :: rs => decide (keyLt (isoKey r) k) || violationFrom (isoKey r) rs

/-- Some adjacent pair of rows has a strictly decreasing ISO key. -/
def orderViolation : List PriceBar → Bool
  | [] => false
  | r :: rs => violationFrom (isoKey r) rs

/-- A key decrease anywhere ahead makes the aggregation loop raise the
ordering error. -/
theorem aggAux_error_of_violation (rows : List PriceBar) :
    ∀ b : WeekBucket, violationFrom (bucketKey b) rows = true →
      ∃ e, aggAux b rows = .error e := by
  induction rows with
  | nil => intro b hv; simp [violationFrom] at hv
  | cons r rs ih =>
    intro b hv
    simp only [violationFrom, Bool.or_eq_true, decide_eq_true_eq] at hv
    by_cases hlt : keyLt (isoKey r) (bucketKey b)
    · exact ⟨orderingErrorMsg, by rw [aggAux, if_pos hlt]⟩
    · have hv2 : violationFrom (isoKey r) rs = true := by
        rcases hv with hv | hv
        · exact absurd hv hlt
        · exact hv
      by_cases heq : isoKey r = bucketKey b
      · obtain ⟨e, he⟩ := ih (foldRow b r) (by rw [bucketKey_foldRow, ← heq]; exact hv2)
        exact ⟨e, by rw [aggAux, if_neg hlt, if_pos heq]; exact he⟩
      · obtain ⟨e, he⟩ := ih (initBucket r) (by rw [bucketKey_initBucket]; exact hv2)
        refine ⟨e, ?_⟩
        rw [aggAux, if_neg hlt, if_neg heq, he]

/-- Membership in `firstEncAux`. -/
theorem mem_firstEncAux {K : Type} [DecidableEq K] (l : List K) :
    ∀ (seen : List K) (x : K), x ∈ firstEncAux seen l ↔ x ∈ l ∧ x ∉ seen := by
  induction l with
  | nil => intro seen x; simp [firstEncAux]
  | cons k ks ih =>
    intro seen x
    by_cases hk : k ∈ seen
    · rw [firstEncAux, if_pos hk, ih]
      simp only [List.mem_cons]
      constructor
      · rintro ⟨h1, h2⟩
        exact ⟨Or.inr h1, h2⟩
      · rintro ⟨h1 | h1, h2⟩
        · subst h1; exact absurd hk h2
        · exact ⟨h1, h2⟩
    · rw [firstEncAux, if_neg hk]
      simp only [List.mem_cons, ih]
      constructor
      · rintro (rfl | ⟨h1, h2⟩)
        · exact ⟨Or.inl rfl, hk⟩
        · push_neg at h2
          exact ⟨Or.inr h1, h2.2⟩
      · rintro ⟨rfl | h1, h2⟩
        · exact Or.inl rfl
        · by_cases hxk : x = k
          · exact Or.inl hxk
          · refine Or.inr ⟨h1, ?_⟩
            push_neg
            exact ⟨hxk, h2⟩

/-- `firstEncAux` has no duplicates. -/
theorem nodup_firstEncAux {K : Type} [DecidableEq K] (l : List K) :
    ∀ seen : List K, (firstEncAux seen l).Nodup := by
  induction l with
  | nil => intro seen; simp [firstEncAux]
  | cons k ks ih =>
    intro seen
    rw [firstEncAux]
    split
    · exact ih seen
    · refine List.Nodup.cons ?_ (ih (k :: seen))
      intro hmem
      rw [mem_firstEncAux] at hmem
      exact hmem.2 (by simp)

/-- The first-encounter list has as many entries as there are distinct
elements. -/
theorem length_firstEncounter (K : Type) [DecidableEq K] (l : List K) :
    (firstEncounter l).length = l.toFinset.card := by
  have hnd : (firstEncounter l).Nodup := nodup_firstEncAux l []
  have hfs : (firstEncounter l).toFinset = l.toFinset := by
    ext x
    simp [List.mem_toFinset, firstEncounter, mem_firstEncAux]
  rw [← List.toFinset_card_of_nodup hnd, hfs]

/-- Under sorted keys, the chunk keys are the distinct keys in
first-encounter order (invariant form with a seen-set containing the
current key). -/
theorem weekChunksAux_keys (rows : List PriceBar) :
    ∀ (h : PriceBar) (acc : List PriceBar) (seen : List (ℤ × ℤ)),
      keysSortedFrom (isoKey h) rows = true →
      isoKey h ∈ seen →
      (∀ s ∈ seen, keyLe s (isoKey h)) →
      (weekChunksAux h acc rows).map (fun c => isoKey c.1) =
        isoKey h :: firstEncAux seen (rows.map isoKey) := by
  induction rows with
  | nil =>
    intro h acc seen _ _ _
    simp [weekChunksAux, firstEncAux]
  | cons r rs ih =>
    intro h acc seen hsort hmem hub
    rw [keysSortedFrom_cons] at hsort
    obtain ⟨hle, hsort2⟩ := hsort
    by_cases heq : isoKey r = isoKey h
    · rw [weekChunksAux, if_pos heq]
      rw [ih h (r :: acc) seen (by rw [← heq]; exact hsort2) hmem hub]
      simp only [List.map_cons]
      rw [firstEncAux, if_pos (by rw [heq]; exact hmem)]
    · have hlt : keyLt (isoKey h) (isoKey r) := by
        rcases hle with hlt | heqk
        · exact hlt
        · exact absurd heqk.symm heq
      have hnot : isoKey r ∉ seen := by
        intro hrs
        exact keyLt_irrefl _ (keyLt_of_keyLe_of_keyLt (hub _ hrs) hlt)
      rw [weekChunksAux, if_neg heq]
      simp only [List.map_cons]
      rw [firstEncAux, if_neg hnot]
      rw [ih r [] (isoKey r :: seen) hsort2 (by simp) ?_]
      intro s hs
      rcases List.mem_cons.mp hs with rfl | hs2
      · exact keyLe_refl _
      · exact keyLe_trans (hub s hs2) (Or.inl hlt)

/-- Under sorted keys, the chunk keys are exactly the distinct input keys in
first-encounter order. -/
theorem weekChunks_keys (rows : List PriceBar) (hsort : keysSorted rows = true) :
    (weekChunks rows).map (fun c => isoKey c.1) =
      firstEncounter (rows.map isoKey) := by
  cases rows with
  | nil => rfl
  | cons r rs =>
    have h := weekChunksAux_keys rs r [] [isoKey r] hsort (by simp)
      (by intro s hs; simp at hs; rw [hs]; exact keyLe_refl _)
    rw [weekChunks, h]
    simp only [firstEncounter, List.map_cons]
    rw [firstEncAux, if_neg (by simp)]

/-- Folding rows never changes the bucket's date or open. -/
theorem foldl_dateOpen (t : List PriceBar) (b : WeekBucket) :
    (t.foldl foldRow b).dateStr = b.dateStr ∧
    (t.foldl foldRow b).openPrice = b.openPrice := by
  induction t generalizing b with
  | nil => exact ⟨rfl, rfl⟩
  | cons r t ih =>
    rw [List.foldl_cons]
    exact ih (foldRow b r)

/-- Folding rows accumulates their volumes. -/
theorem foldl_volume (t : List PriceBar) (b : WeekBucket) :
    (t.foldl foldRow b).volume = b.volume + (t.map PriceBar.volume).sum := by
  induction t generalizing b with
  | nil => simp
  | cons r t ih =>
    rw [List.foldl_cons, ih]
    simp [foldRow]
    ring

/-- Folding rows keeps the close and openInterest of the most recent row. -/
theorem foldl_closeOpenInt (t : List PriceBar) :
    ∀ (b : WeekBucket) (d : PriceBar),
      b.closePrice = d.closePrice → b.openInt = d.openInt →
      (t.foldl foldRow b).closePrice = (t.getLastD d).closePrice ∧
      (t.foldl foldRow b).openInt = (t.getLastD d).openInt := by
  induction t with
  | nil =>
    intro b d h1 h2
    simpa using ⟨h1, h2⟩
  | cons r t ih =>
    intro b d h1 h2
    rw [List.foldl_cons, List.getLastD_cons]
    exact ih (foldRow b r) r rfl rfl

/-- The maximum of a row's four price fields, in the order the code's sort
yields it. -/
def max4 (r : PriceBar) : ℚ :=
  max (max (max r.openPrice r.highPrice) r.lowPrice) r.closePrice

/-- The minimum of a row's four price fields. -/
def min4 (r : PriceBar) : ℚ :=
  min (min (min r.openPrice r.highPrice) r.lowPrice) r.closePrice

/-- The conditional update of the code is a `max`. -/
theorem ite_gt_max (a b : ℚ) : (if a > b then a else b) = max b a := by
  split
  · exact (max_eq_right (le_of_lt ‹b < a›)).symm
  · exact (max_eq_left (not_lt.mp ‹¬ a > b›)).symm

/-- The conditional update of the code is a `min`. -/
theorem ite_lt_min (a b : ℚ) : (if a < b then a else b) = min b a := by
  split
  · exact (min_eq_right (le_of_lt ‹a < b›)).symm
  · exact (min_eq_left (not_lt.mp ‹¬ a < b›)).symm

/-- One fold step's high update. -/
theorem foldRow_high (b : WeekBucket) (r : PriceBar) :
    (foldRow b r).highPrice = max b.highPrice (max4 r) := by
  simp only [foldRow, max4]
  exact ite_gt_max _ _

/-- One fold step's low update. -/
theorem foldRow_low (b : WeekBucket) (r : PriceBar) :
    (foldRow b r).lowPrice = min b.lowPrice (min4 r) := by
  simp only [foldRow, min4]
  exact ite_lt_min _ _

/-- The bucket's high after folding is the scalar max-fold of the rows'
`max4` values. -/
theorem foldl_high (t : List PriceBar) :
    ∀ b : WeekBucket, (t.foldl foldRow b).highPrice =
      t.foldl (fun a r => max a (max4 r)) b.highPrice := by
  induction t with
  | nil => intro b; rfl
  | cons r t ih =>
    intro b
    rw [List.foldl_cons, List.foldl_cons, ih, foldRow_high]

/-- The bucket's low after folding is the scalar min-fold of the rows'
`min4` values. -/
theorem foldl_low (t : List PriceBar) :
    ∀ b : WeekBucket, (t.foldl foldRow b).lowPrice =
      t.foldl (fun a r => min a (min4 r)) b.lowPrice := by
  induction t with
  | nil => intro b; rfl
  | cons r t ih =>
    intro b
    rw [List.foldl_cons, List.foldl_cons, ih, foldRow_low]

/-- The scalar max-fold returns its seed or one of the rows' `max4`. -/
theorem scalarMaxFold_mem (t : List PriceBar) :
    ∀ a : ℚ, t.foldl (fun a r => max a (max4 r)) a = a ∨
      ∃ r ∈ t, t.foldl (fun a r => max a (max4 r)) a = max4 r := by
  induction t with
  | nil => intro a; exact Or.inl rfl
  | cons r t ih =>
    intro a
    rcases ih (max a (max4 r)) with h | ⟨r2, hr2, h⟩
    · rcases max_choice a (max4 r) with hm | hm
      · left
        rw [List.foldl_cons, h, hm]
      · right
        exact ⟨r, by simp, by rw [List.foldl_cons, h, hm]⟩
    · right
      exact ⟨r2, by simp [hr2], by rw [List.foldl_cons, h]⟩

/-- The scalar max-fold bounds its seed and all rows' `max4` from above. -/
theorem scalarMaxFold_le (t : List PriceBar) :
    ∀ a : ℚ, a ≤ t.foldl (fun a r => max a (max4 r)) a ∧
      ∀ r ∈ t, max4 r ≤ t.foldl (fun a r => max a (max4 r)) a := by
  induction t with
  | nil => intro a; simp
  | cons r t ih =>
    intro a
    obtain ⟨h1, h2⟩ := ih (max a (max4 r))
    rw [List.foldl_cons]
    constructor
    · exact le_trans (le_max_left a _) h1
    · intro r2 hr2
      rcases List.mem_cons.mp hr2 with rfl | hmem
      · exact le_trans (le_max_right a _) h1
      · exact h2 r2 hmem

/-- The scalar min-fold returns its seed or one of the rows' `min4`. -/
theorem scalarMinFold_mem (t : List PriceBar) :
    ∀ a : ℚ, t.foldl (fun a r => min a (min4 r)) a = a ∨
      ∃ r ∈ t, t.foldl (fun a r => min a (min4 r)) a = min4 r := by
  induction t with
  | nil => intro a; exact Or.inl rfl
  | cons r t ih =>
    intro a
    rcases ih (min a (min4 r)) with h | ⟨r2, hr2, h⟩
    · rcases min_choice a (min4 r) with hm | hm
      · left
        rw [List.foldl_cons, h, hm]
      · right
        exact ⟨r, by simp, by rw [List.foldl_cons, h, hm]⟩
    · right
      exact ⟨r2, by simp [hr2], by rw [List.foldl_cons, h]⟩

/-- The scalar min-fold bounds its seed and all rows' `min4` from below. -/
theorem scalarMinFold_ge (t : List PriceBar) :
    ∀ a : ℚ, t.foldl (fun a r => min a (min4 r)) a ≤ a ∧
      ∀ r ∈ t, t.foldl (fun a r => min a (min4 r)) a ≤ min4 r := by
  induction t with
  | nil => intro a; simp
  | cons r t ih =>
    intro a
    obtain ⟨h1, h2⟩ := ih (min a (min4 r))
    rw [List.foldl_cons]
    constructor
    · exact le_trans h1 (min_le_left a _)
    · intro r2 hr2
      rcases List.mem_cons.mp hr2 with rfl | hmem
      · exact le_trans h1 (min_le_right a _)
      · exact h2 r2 hmem

/-- OHLC validity of a daily row: the high is the largest and the low the
smallest of its four price fields. -/
def rowValid (r : PriceBar) : Prop :=
  r.lowPrice ≤ r.openPrice ∧ r.lowPrice ≤ r.closePrice ∧
  r.openPrice ≤ r.highPrice ∧ r.closePrice ≤ r.highPrice ∧
  r.lowPrice ≤ r.highPrice

instance (r : PriceBar) : Decidable (rowValid r) :=
  inferInstanceAs (Decidable
    (r.lowPrice ≤ r.openPrice ∧ r.lowPrice ≤ r.closePrice ∧
      r.openPrice ≤ r.highPrice ∧ r.closePrice ≤ r.highPrice ∧
      r.lowPrice ≤ r.highPrice))

/-- For an OHLC-valid row the sorted maximum is the high field. -/
theorem max4_eq_high (r : PriceBar) (h : rowValid r) : max4 r = r.highPrice := by
  obtain ⟨h1, h2, h3, h4, h5⟩ := h
  unfold max4
  rw [max_eq_right h3, max_eq_left h5, max_eq_left h4]

/-- For an OHLC-valid row the sorted minimum is the low field. -/
theorem min4_eq_low (r : PriceBar) (h : rowValid r) : min4 r = r.lowPrice := by
  obtain ⟨h1, h2, h3, h4, h5⟩ := h
  unfold min4
  rw [min_eq_left h3, min_eq_right h1, min_eq_left h2]

/-- All open/high/low/close values of all rows of a chunk (the week's first
row included), the set the claim's weekly high/low range over. -/
def ohlcValues (c : PriceBar × List PriceBar) : List ℚ :=
  (c.1 :: c.2).flatMap
    (fun r => [r.openPrice, r.highPrice, r.lowPrice, r.closePrice])

/-- The summarized chunk's high is the bucket scalar max-fold. -/
theorem summarizeChunk_high (c : PriceBar × List PriceBar) :
    (summarizeChunk c).highPrice =
      c.2.foldl (fun a r => max a (max4 r)) c.1.highPrice := by
  obtain ⟨h, t⟩ := c
  show (t.foldl foldRow (initBucket h)).highPrice = _
  rw [foldl_high]
  rfl

/-- The summarized chunk's low is the bucket scalar min-fold. -/
theorem summarizeChunk_low (c : PriceBar × List PriceBar) :
    (summarizeChunk c).lowPrice =
      c.2.foldl (fun a r => min a (min4 r)) c.1.lowPrice := by
  obtain ⟨h, t⟩ := c
  show (t.foldl foldRow (initBucket h)).lowPrice = _
  rw [foldl_low]
  rfl

/-- For chunks of OHLC-valid rows, the summarized high is a member of the
chunk's OHLC values and an upper bound of all of them — i.e. their maximum.
Similarly the low is their minimum. -/
theorem summarizeChunk_extrema (c : PriceBar × List PriceBar)
    (hval : ∀ r ∈ c.1 :: c.2, rowValid r) :
    ((summarizeChunk c).highPrice ∈ ohlcValues c ∧
      ∀ v ∈ ohlcValues c, v ≤ (summarizeChunk c).highPrice) ∧
    ((summarizeChunk c).lowPrice ∈ ohlcValues c ∧
      ∀ v ∈ ohlcValues c, (summarizeChunk c).lowPrice ≤ v) := by
  obtain ⟨h, t⟩ := c
  have hvh : rowValid h := hval h (by simp)
  refine ⟨⟨?_, ?_⟩, ⟨?_, ?_⟩⟩
  · rw [summarizeChunk_high]
    rcases scalarMaxFold_mem t h.highPrice with hc | ⟨r, hr, hc⟩
    · rw [hc, ohlcValues, List.mem_flatMap]
      exact ⟨h, by simp, by simp⟩
    · rw [hc, max4_eq_high r (hval r (by simp [hr])), ohlcValues, List.mem_flatMap]
      exact ⟨r, by simp [hr], by simp⟩
  · intro v hv
    rw [summarizeChunk_high]
    obtain ⟨hinit, hall⟩ := scalarMaxFold_le t h.highPrice
    rw [ohlcValues, List.mem_flatMap] at hv
    obtain ⟨a, ha, hva⟩ := hv
    have hvalid : rowValid a := hval a ha
    obtain ⟨v1, v2, v3, v4, v5⟩ := hvalid
    have hvle : v ≤ a.highPrice := by
      simp only [List.mem_cons, List.not_mem_nil, or_false] at hva
      rcases hva with rfl | rfl | rfl | rfl
      · exact v3
      · exact le_refl _
      · exact v5
      · exact v4
    rcases List.mem_cons.mp ha with rfl | hat
    · exact le_trans hvle hinit
    · have := hall a hat
      rw [max4_eq_high a (hval a ha)] at this
      exact le_trans hvle this
  · rw [summarizeChunk_low]
    rcases scalarMinFold_mem t h.lowPrice with hc | ⟨r, hr, hc⟩
    · rw [hc, ohlcValues, List.mem_flatMap]
      exact ⟨h, by simp, by simp⟩
    · rw [hc, min4_eq_low r (hval r (by simp [hr])), ohlcValues, List.mem_flatMap]
      exact ⟨r, by simp [hr], by simp⟩
  · intro v hv
    rw [summarizeChunk_low]
    obtain ⟨hinit, hall⟩ := scalarMinFold_ge t h.lowPrice
    rw [ohlcValues, List.mem_flatMap] at hv
    obtain ⟨a, ha, hva⟩ := hv
    have hvalid : rowValid a := hval a ha
    obtain ⟨v1, v2, v3, v4, v5⟩ := hvalid
    have hvge : a.lowPrice ≤ v := by
      simp only [List.mem_cons, List.not_mem_nil, or_false] at hva
      rcases hva with rfl | rfl | rfl | rfl
      · exact v1
      · exact v5
      · exact le_refl _
      · exact v2
    rcases List.mem_cons.mp ha with rfl | hat
    · exact le_trans hinit hvge
    · have := hall a hat
      rw [min4_eq_low a (hval a ha)] at this
      exact le_trans this hvge

/-- Rows of chunks come from the seed row, the accumulator or the input. -/
theorem weekChunksAux_mem (rows : List PriceBar) :
    ∀ (h : PriceBar) (acc : List PriceBar) (c : PriceBar × List PriceBar),
      c ∈ weekChunksAux h acc rows →
        ∀ r ∈ c.1 :: c.2, r = h ∨ r ∈ acc ∨ r ∈ rows := by
  induction rows with
  | nil =>
    intro h acc c hc r hr
    simp only [weekChunksAux, List.mem_singleton] at hc
    subst hc
    simp only [List.mem_cons, List.mem_reverse] at hr
    rcases hr with rfl | hr
    · exact Or.inl rfl
    · exact Or.inr (Or.inl hr)
  | cons r0 rs ih =>
    intro h acc c hc r hr
    by_cases heq : isoKey r0 = isoKey h
    · rw [weekChunksAux, if_pos heq] at hc
      rcases ih h (r0 :: acc) c hc r hr with h1 | h2 | h3
      · exact Or.inl h1
      · rcases List.mem_cons.mp h2 with rfl | hm
        · exact Or.inr (Or.inr (by simp))
        · exact Or.inr (Or.inl hm)
      · exact Or.inr (Or.inr (by simp [h3]))
    · rw [weekChunksAux, if_neg heq] at hc
      rcases List.mem_cons.mp hc with rfl | hc2
      · simp only [List.mem_cons, List.mem_reverse] at hr
        rcases hr with rfl | hr
        · exact Or.inl rfl
        · exact Or.inr (Or.inl hr)
      · rcases ih r0 [] c hc2 r hr with h1 | h2 | h3
        · exact Or.inr (Or.inr (by simp [h1]))
        · simp at h2
        · exact Or.inr (Or.inr (by simp [h3]))

/-- Every row of a week chunk is an input row. -/
theorem weekChunks_mem (rows : List PriceBar) (c : PriceBar × List PriceBar)
    (hc : c ∈ weekChunks rows) (r : PriceBar) (hr : r ∈ c.1 :: c.2) :
    r ∈ rows := by
  cases rows with
  | nil => simp [weekChunks] at hc
  | cons r0 rs =>
    rcases weekChunksAux_mem rs r0 [] c hc r hr with h1 | h2 | h3
    · simp [h1]
    · simp at h2
    · simp [h3]

/-- A malformed line makes `validateLine` raise. -/
theorem lineMalformed_error (l : String) (h : lineMalformed l) :
    ∃ m, validateLine l = .error m := by
  rcases h with h | h
  · exact ⟨fieldCountErrorMsg, by simp only [validateLine]; rw [if_pos h]⟩
  · by_cases h7 : (pySplitComma l).length ≠ 7
    · exact ⟨fieldCountErrorMsg, by simp only [validateLine]; rw [if_pos h7]⟩
    · refine ⟨dateLenErrorMsgPre ++ pyStrip ((pySplitComma l).headD ""), ?_⟩
      simp only [validateLine]
      rw [if_neg h7, if_pos h]

/-- A wellformed line makes `validateLine` succeed. -/
theorem lineWellformed_ok (l : String) (h : ¬ lineMalformed l) :
    validateLine l = .ok ((pySplitComma l).map pyStrip) := by
  unfold lineMalformed at h
  push_neg at h
  simp only [validateLine]
  rw [if_neg (by simpa using h.1), if_neg (by simpa using h.2)]

/-- A malformed line anywhere makes the validation pass raise. -/
theorem validateLines_error (ls : List String)
    (h : ∃ l ∈ ls, lineMalformed l) :
    ∃ m, validateLines ls = .error m := by
  induction ls with
  | nil => simp at h
  | cons l ls ih =>
    by_cases hl : lineMalformed l
    · obtain ⟨m, hm⟩ := lineMalformed_error l hl
      exact ⟨m, by simp [validateLines, hm]⟩
    · have hok := lineWellformed_ok l hl
      have h2 : ∃ x ∈ ls, lineMalformed x := by
        rcases h with ⟨x, hx, hmal⟩
        rcases List.mem_cons.mp hx with rfl | hxs
        · exact absurd hmal hl
        · exact ⟨x, hxs, hmal⟩
      obtain ⟨m, hm⟩ := ih h2
      exact ⟨m, by simp [validateLines, hok, hm]⟩

/-- C4 (counterexample): on a single valid, chronological row whose open
exceeds its high, the emitted weekly high is the high field (15), although
20 is among the open/high/low/close values folded into the week — so the
weekly high is not the maximum of that set as claimed. -/
theorem weeklyHighClaimCex :
    convertDailyToWeekly [⟨"01/06/2020", 2020, 1, 6, 20, 15, 5, 10, 100, 7⟩] =
      .ok [⟨"01/06/2020", 20, 15, 5, 10, 100, 7⟩] ∧
    (20 : ℚ) ∈ ohlcValues (⟨"01/06/2020", 2020, 1, 6, 20, 15, 5, 10, 100, 7⟩, []) ∧
    ((15 : ℚ) < 20) ∧
    validDate ⟨"01/06/2020", 2020, 1, 6, 20, 15, 5, 10, 100, 7⟩ ∧
    chronOrdered [⟨"01/06/2020", 2020, 1, 6, 20, 15, 5, 10, 100, 7⟩] = true := by
  decide

/-- C4 (amended): for chronologically ordered, date-valid inputs whose rows
are OHLC-valid (low smallest, high largest among the four price fields), the
aggregation succeeds and every output week row's high is the maximum — a
member and an upper bound — of the open/high/low/close values of all rows
folded into that week (first row included), and its low is their minimum. -/
theorem weeklyHighLowAmended (rows : List PriceBar)
    (hv : ∀ r ∈ rows, validDate r) (hc : chronOrdered rows = true)
    (hval : ∀ r ∈ rows, rowValid r) :
    convertDailyToWeekly rows = .ok ((weekChunks rows).map summarizeChunk) ∧
    ∀ c ∈ weekChunks rows,
      ((summarizeChunk c).highPrice ∈ ohlcValues c ∧
        ∀ v ∈ ohlcValues c, v ≤ (summarizeChunk c).highPrice) ∧
      ((summarizeChunk c).lowPrice ∈ ohlcValues c ∧
        ∀ v ∈ ohlcValues c, (summarizeChunk c).lowPrice ≤ v) := by
  refine ⟨convert_eq_chunks rows (chron_keysSorted rows hv hc), ?_⟩
  intro c hcmem
  exact summarizeChunk_extrema c
    (fun r hr => hval r (weekChunks_mem rows c hcmem r hr))

/-- Witness for C4 (amended) on two same-week valid rows. -/
theorem weeklyHighLowAmendedWitness :
    (∀ r ∈ [(⟨"01/06/2020", 2020, 1, 6, 5, 6, 4, 5, 10, 1⟩ : PriceBar),
      ⟨"01/07/2020", 2020, 1, 7, 7, 8, 3, 4, 20, 2⟩], validDate r) ∧
    chronOrdered [(⟨"01/06/2020", 2020, 1, 6, 5, 6, 4, 5, 10, 1⟩ : PriceBar),
      ⟨"01/07/2020", 2020, 1, 7, 7, 8, 3, 4, 20, 2⟩] = true ∧
    (∀ r ∈ [(⟨"01/06/2020", 2020, 1, 6, 5, 6, 4, 5, 10, 1⟩ : PriceBar),
      ⟨"01/07/2020", 2020, 1, 7, 7, 8, 3, 4, 20, 2⟩], rowValid r) ∧
    (convertDailyToWeekly [(⟨"01/06/2020", 2020, 1, 6, 5, 6, 4, 5, 10, 1⟩ : PriceBar),
        ⟨"01/07/2020", 2020, 1, 7, 7, 8, 3, 4, 20, 2⟩] =
      .ok ((weekChunks [(⟨"01/06/2020", 2020, 1, 6, 5, 6, 4, 5, 10, 1⟩ : PriceBar),
        ⟨"01/07/2020", 2020, 1, 7, 7, 8, 3, 4, 20, 2⟩]).map summarizeChunk) ∧
    ∀ c ∈ weekChunks [(⟨"01/06/2020", 2020, 1, 6, 5, 6, 4, 5, 10, 1⟩ : PriceBar),
        ⟨"01/07/2020", 2020, 1, 7, 7, 8, 3, 4, 20, 2⟩],
      ((summarizeChunk c).highPrice ∈ ohlcValues c ∧
        ∀ v ∈ ohlcValues c, v ≤ (summarizeChunk c).highPrice) ∧
      ((summarizeChunk c).lowPrice ∈ ohlcValues c ∧
        ∀ v ∈ ohlcValues c, (summarizeChunk c).lowPrice ≤ v)) :=
  ⟨by decide, by decide, by decide,
    weeklyHighLowAmended _ (by decide) (by decide) (by decide)⟩

/-- C5 (counterexample): rows strictly out of chronological order that share
an ISO week are accepted: the run succeeds and produces an output file. -/
theorem orderingClaimCex :
    ordOf ⟨"01/06/2020", 2020, 1, 6, 7, 8, 3, 4, 20, 2⟩ <
      ordOf ⟨"01/07/2020", 2020, 1, 7, 5, 6, 4, 5, 10, 1⟩ ∧
    chronOrdered [(⟨"01/07/2020", 2020, 1, 7, 5, 6, 4, 5, 10, 1⟩ : PriceBar),
      ⟨"01/06/2020", 2020, 1, 6, 7, 8, 3, 4, 20, 2⟩] = false ∧
    convertDailyToWeekly [(⟨"01/07/2020", 2020, 1, 7, 5, 6, 4, 5, 10, 1⟩ : PriceBar),
      ⟨"01/06/2020", 2020, 1, 6, 7, 8, 3, 4, 20, 2⟩] =
      .ok [⟨"01/07/2020", 5, 8, 3, 4, 30, 2⟩] ∧
    weeklyOutput [(⟨"01/07/2020", 2020, 1, 7, 5, 6, 4, 5, 10, 1⟩ : PriceBar),
      ⟨"01/06/2020", 2020, 1, 6, 7, 8, 3, 4, 20, 2⟩] =
      some [⟨"01/07/2020", 5, 8, 3, 4, 30, 2⟩] ∧
    validDate ⟨"01/07/2020", 2020, 1, 7, 5, 6, 4, 5, 10, 1⟩ ∧
    validDate ⟨"01/06/2020", 2020, 1, 6, 7, 8, 3, 4, 20, 2⟩ := by
  decide

/-- C5 (amended): the aggregator raises the ordering error exactly on an ISO
(year, week) key decrease: whenever some adjacent pair of rows has a
strictly lex-decreasing key, the run errors out and no output file is
produced (the script exits inside the read loop before the output file is
opened).  Rows out of date order within one ISO week are not detected. -/
theorem orderingErrorAmended (rows : List PriceBar)
    (h : orderViolation rows = true) :
    (∃ e, convertDailyToWeekly rows = .error e) ∧ weeklyOutput rows = none := by
  cases rows with
  | nil => simp [orderViolation] at h
  | cons r rs =>
    have hv : violationFrom (bucketKey (initBucket r)) rs = true := by
      rw [bucketKey_initBucket]
      exact h
    obtain ⟨e, he⟩ := aggAux_error_of_violation rs (initBucket r) hv
    exact ⟨⟨e, he⟩, by simp [weeklyOutput, convertDailyToWeekly, he]⟩

/-- Witness for C5 (amended): week 3 followed by week 2 of 2020. -/
theorem orderingErrorAmendedWitness :
    orderViolation [(⟨"01/13/2020", 2020, 1, 13, 5, 6, 4, 5, 10, 1⟩ : PriceBar),
      ⟨"01/07/2020", 2020, 1, 7, 7, 8, 3, 4, 20, 2⟩] = true ∧
    ((∃ e, convertDailyToWeekly
        [(⟨"01/13/2020", 2020, 1, 13, 5, 6, 4, 5, 10, 1⟩ : PriceBar),
          ⟨"01/07/2020", 2020, 1, 7, 7, 8, 3, 4, 20, 2⟩] = .error e) ∧
      weeklyOutput [(⟨"01/13/2020", 2020, 1, 13, 5, 6, 4, 5, 10, 1⟩ : PriceBar),
        ⟨"01/07/2020", 2020, 1, 7, 7, 8, 3, 4, 20, 2⟩] = none) :=
  ⟨by decide, orderingErrorAmended _ (by decide)⟩

/-- C7 (counterexample): the wrong-field-count message is one fixed string:
two different malformed lines produce the identical message, and the
offending line's text does not occur in it — the message does not name the
offending line.  The failure still precedes any output write. -/
theorem malformedRowMessageCex :
    validateLine "1,2,3" = .error fieldCountErrorMsg ∧
    validateLine "9,8,7,6,5,4,3,2" = .error fieldCountErrorMsg ∧
    ¬ ("1,2,3".toList <:+: fieldCountErrorMsg.toList) ∧
    weeklyValidatedOutput ["Date,Open,High,Low,Close,Volume,OpenInt", "1,2,3"] =
      none := by
  refine ⟨by decide, by decide, by decide, by decide⟩

/-- C7 (amended): a malformed data row (wrong comma-field count or a
stripped date field not exactly 10 characters) makes the run stop with exit
status 1 before any output write begins (no output file); the field-count
message is a fixed string while the date-length message appends the
offending date field only. -/
theorem malformedRowStopsAmended (lines : List String)
    (h : ∃ l ∈ dataLines lines, lineMalformed l) :
    (∃ msg, validateAll lines = .error msg) ∧
    weeklyValidatedOutput lines = none := by
  obtain ⟨m, hm⟩ := validateLines_error (dataLines lines) h
  refine ⟨⟨m, by rw [validateAll]; exact hm⟩, ?_⟩
  simp [weeklyValidatedOutput, validateAll, hm]

/-- Witness for C7 (amended) on a short data row. -/
theorem malformedRowStopsAmendedWitness :
    (∃ l ∈ dataLines ["Date,Open,High,Low,Close,Volume,OpenInt",
      "01/06/2020,1,2,3,4,5"], lineMalformed l) ∧
    ((∃ msg, validateAll ["Date,Open,High,Low,Close,Volume,OpenInt",
        "01/06/2020,1,2,3,4,5"] = .error msg) ∧
      weeklyValidatedOutput ["Date,Open,High,Low,Close,Volume,OpenInt",
        "01/06/2020,1,2,3,4,5"] = none) :=
  ⟨by decide, malformedRowStopsAmended _ (by decide)⟩

/-- C8: for valid chronologically ordered inputs the aggregation succeeds,
and each output weekly row's volume is the sum of its week's daily volumes,
its close and openInterest are the last folded row's, and its open and date
are the first folded row's; on the section 8 Monday-to-Friday example
(2004-01-05 .. 2004-01-09; 11.5 and 9.5 written as `mkRat 23 2` and
`mkRat 19 2`) the single output row is open 10, high 15, low 8, close 14,
volume 1000, openInterest 5 (Friday's). -/
theorem weeklyFieldAggregation (rows : List PriceBar)
    (hv : ∀ r ∈ rows, validDate r) (hc : chronOrdered rows = true) :
    convertDailyToWeekly rows = .ok ((weekChunks rows).map summarizeChunk) ∧
    (∀ c ∈ weekChunks rows,
      (summarizeChunk c).volume = ((c.1 :: c.2).map PriceBar.volume).sum ∧
      (summarizeChunk c).closePrice = (c.2.getLastD c.1).closePrice ∧
      (summarizeChunk c).openInt = (c.2.getLastD c.1).openInt ∧
      (summarizeChunk c).openPrice = c.1.openPrice ∧
      (summarizeChunk c).dateStr = c.1.dateStr) ∧
    convertDailyToWeekly
      [(⟨"01/05/2004", 2004, 1, 5, 10, 12, 9, 11, 100, 1⟩ : PriceBar),
        ⟨"01/06/2004", 2004, 1, 6, 12, 13, 10, mkRat 23 2, 200, 2⟩,
        ⟨"01/07/2004", 2004, 1, 7, 9, 10, 8, mkRat 19 2, 150, 3⟩,
        ⟨"01/08/2004", 2004, 1, 8, 11, 14, 10, 13, 300, 4⟩,
        ⟨"01/09/2004", 2004, 1, 9, 13, 15, 12, 14, 250, 5⟩] =
      .ok [⟨"01/05/2004", 10, 15, 8, 14, 1000, 5⟩] := by
  refine ⟨convert_eq_chunks rows (chron_keysSorted rows hv hc), ?_, by decide⟩
  intro c hcmem
  obtain ⟨h, t⟩ := c
  have hco := foldl_closeOpenInt t (initBucket h) h rfl rfl
  have hdo := foldl_dateOpen t (initBucket h)
  refine ⟨?_, hco.1, hco.2, hdo.2, hdo.1⟩
  show (t.foldl foldRow (initBucket h)).volume = _
  rw [foldl_volume]
  simp [initBucket]

/-- Witness for C8 on the section 8 example rows themselves. -/
theorem weeklyFieldAggregationWitness :
    (∀ r ∈ [(⟨"01/05/2004", 2004, 1, 5, 10, 12, 9, 11, 100, 1⟩ : PriceBar),
        ⟨"01/06/2004", 2004, 1, 6, 12, 13, 10, mkRat 23 2, 200, 2⟩,
        ⟨"01/07/2004", 2004, 1, 7, 9, 10, 8, mkRat 19 2, 150, 3⟩,
        ⟨"01/08/2004", 2004, 1, 8, 11, 14, 10, 13, 300, 4⟩,
        ⟨"01/09/2004", 2004, 1, 9, 13, 15, 12, 14, 250, 5⟩], validDate r) ∧
    chronOrdered [(⟨"01/05/2004", 2004, 1, 5, 10, 12, 9, 11, 100, 1⟩ : PriceBar),
        ⟨"01/06/2004", 2004, 1, 6, 12, 13, 10, mkRat 23 2, 200, 2⟩,
        ⟨"01/07/2004", 2004, 1, 7, 9, 10, 8, mkRat 19 2, 150, 3⟩,
        ⟨"01/08/2004", 2004, 1, 8, 11, 14, 10, 13, 300, 4⟩,
        ⟨"01/09/2004", 2004, 1, 9, 13, 15, 12, 14, 250, 5⟩] = true ∧
    convertDailyToWeekly
      [(⟨"01/05/2004", 2004, 1, 5, 10, 12, 9, 11, 100, 1⟩ : PriceBar),
        ⟨"01/06/2004", 2004, 1, 6, 12, 13, 10, mkRat 23 2, 200, 2⟩,
        ⟨"01/07/2004", 2004, 1, 7, 9, 10, 8, mkRat 19 2, 150, 3⟩,
        ⟨"01/08/2004", 2004, 1, 8, 11, 14, 10, 13, 300, 4⟩,
        ⟨"01/09/2004", 2004, 1, 9, 13, 15, 12, 14, 250, 5⟩] =
      .ok [⟨"01/05/2004", 10, 15, 8, 14, 1000, 5⟩] ∧
    (mkRat 23 2 : ℚ) = 11.5 ∧ (mkRat 19 2 : ℚ) = 9.5 :=
  ⟨by decide, by decide,
    (weeklyFieldAggregation
      [(⟨"01/05/2004", 2004, 1, 5, 10, 12, 9, 11, 100, 1⟩ : PriceBar),
        ⟨"01/06/2004", 2004, 1, 6, 12, 13, 10, mkRat 23 2, 200, 2⟩,
        ⟨"01/07/2004", 2004, 1, 7, 9, 10, 8, mkRat 19 2, 150, 3⟩,
        ⟨"01/08/2004", 2004, 1, 8, 11, 14, 10, 13, 300, 4⟩,
        ⟨"01/09/2004", 2004, 1, 9, 13, 15, 12, 14, 250, 5⟩]
      (by decide) (by decide)).2.2,
    by norm_num [mkRat, Rat.normalize], by norm_num [mkRat, Rat.normalize]⟩

/-- C9: for valid chronologically ordered inputs the aggregation succeeds,
the number of output weekly rows equals the number of distinct ISO (year,
week) keys among the input rows, and the output rows are the week chunks'
summaries whose keys appear in first-encounter order. -/
theorem weeklyRowCountDistinctWeeks (rows : List PriceBar)
    (hv : ∀ r ∈ rows, validDate r) (hc : chronOrdered rows = true) :
    ∃ out, convertDailyToWeekly rows = .ok out ∧
      out.length = (rows.map isoKey).toFinset.card ∧
      out = (weekChunks rows).map summarizeChunk ∧
      (weekChunks rows).map (fun c => isoKey c.1) =
        firstEncounter (rows.map isoKey) := by
  have hsort := chron_keysSorted rows hv hc
  refine ⟨(weekChunks rows).map summarizeChunk,
    convert_eq_chunks rows hsort, ?_, rfl, weekChunks_keys rows hsort⟩
  have h2 : (weekChunks rows).length =
      ((weekChunks rows).map (fun c => isoKey c.1)).length :=
    (List.length_map _ _).symm
  rw [List.length_map, h2, weekChunks_keys rows hsort,
    length_firstEncounter]

/-- Witness for C9 on three rows spanning two ISO weeks. -/
theorem weeklyRowCountDistinctWeeksWitness :
    (∀ r ∈ [(⟨"01/06/2020", 2020, 1, 6, 5, 6, 4, 5, 10, 1⟩ : PriceBar),
        ⟨"01/07/2020", 2020, 1, 7, 7, 8, 3, 4, 20, 2⟩,
        ⟨"01/13/2020", 2020, 1, 13, 9, 9, 9, 9, 30, 3⟩], validDate r) ∧
    chronOrdered [(⟨"01/06/2020", 2020, 1, 6, 5, 6, 4, 5, 10, 1⟩ : PriceBar),
        ⟨"01/07/2020", 2020, 1, 7, 7, 8, 3, 4, 20, 2⟩,
        ⟨"01/13/2020", 2020, 1, 13, 9, 9, 9, 9, 30, 3⟩] = true ∧
    (∃ out, convertDailyToWeekly
        [(⟨"01/06/2020", 2020, 1, 6, 5, 6, 4, 5, 10, 1⟩ : PriceBar),
          ⟨"01/07/2020", 2020, 1, 7, 7, 8, 3, 4, 20, 2⟩,
          ⟨"01/13/2020", 2020, 1, 13, 9, 9, 9, 9, 30, 3⟩] = .ok out ∧
      out.length = ([(⟨"01/06/2020", 2020, 1, 6, 5, 6, 4, 5, 10, 1⟩ : PriceBar),
          ⟨"01/07/2020", 2020, 1, 7, 7, 8, 3, 4, 20, 2⟩,
          ⟨"01/13/2020", 2020, 1, 13, 9, 9, 9, 9, 30, 3⟩].map isoKey).toFinset.card ∧
      out = (weekChunks [(⟨"01/06/2020", 2020, 1, 6, 5, 6, 4, 5, 10, 1⟩ : PriceBar),
          ⟨"01/07/2020", 2020, 1, 7, 7, 8, 3, 4, 20, 2⟩,
          ⟨"01/13/2020", 2020, 1, 13, 9, 9, 9, 9, 30, 3⟩]).map summarizeChunk ∧
      (weekChunks [(⟨"01/06/2020", 2020, 1, 6, 5, 6, 4, 5, 10, 1⟩ : PriceBar),
          ⟨"01/07/2020", 2020, 1, 7, 7, 8, 3, 4, 20, 2⟩,
          ⟨"01/13/2020", 2020, 1, 13, 9, 9, 9, 9, 30, 3⟩]).map (fun c => isoKey c.1) =
        firstEncounter ([(⟨"01/06/2020", 2020, 1, 6, 5, 6, 4, 5, 10, 1⟩ : PriceBar),
          ⟨"01/07/2020", 2020, 1, 7, 7, 8, 3, 4, 20, 2⟩,
          ⟨"01/13/2020", 2020, 1, 13, 9, 9, 9, 9, 30, 3⟩].map isoKey)) :=
  ⟨by decide, by decide,
    weeklyRowCountDistinctWeeks _ (by decide) (by decide)⟩

end Weekly
